import Mathlib

/-!
Verification of the `cbp` validator ("agent") library against its design
specification.  The agents of `dist/index.js` are embedded shallowly:
JavaScript runtime values become the inductive type `CBP.Value` (JS numbers
are modelled as rationals; objects carry their own enumerable properties
together with the flattened enumerable view of their prototype chain, since
the library's `hasProperty` helper uses the JS `in` operator, which consults
the prototype chain), and each agent class becomes a constructor of
`CBP.Agent`.  The methods `verifyStamp`, `makeStampable`, `canStamp` and
`stamp` are translated clause by clause from the source.
-/

namespace CBP

/-- A JavaScript runtime value.  `vobj own inherited` is an object whose own
enumerable string-keyed properties are `own` (in insertion order) and whose
prototype chain contributes the properties `inherited`; plain objects created
by the library itself (e.g. by lodash `mapValues`) have `inherited = []`.
Arrays are kept separate because `Array.isArray` distinguishes them, but they
still satisfy `typeof x === 'object'`. -/
inductive Value : Type where
  | vstr (s : String)
  | vnum (n : ℚ)
  | vbool (b : Bool)
  | vnull
  | vundefined
  | varr (items : List Value)
  | vobj (own : List (String × Value)) (inherited : List (String × Value))

/-- `typeof x === 'object' && x !== null`: true exactly for arrays and
(non-null) objects. -/
def isObjectTyped : Value → Bool
  | .varr _ => true
  | .vobj _ _ => true
  | _ => false

/-- JavaScript strict equality `===` (also SameValueZero as used by
`Array.prototype.includes`, NaN aside, which this model does not contain).
Two primitives are strictly equal when they have the same kind and payload;
an object or array is only `===` to itself, and since every `Value` in this
model denotes a freshly materialised structure, distinct occurrences are
distinct references, so object comparisons yield `false`. -/
def jsStrictEq : Value → Value → Bool
  | .vstr a, .vstr b => a == b
  | .vnum a, .vnum b => a == b
  | .vbool a, .vbool b => a == b
  | .vnull, .vnull => true
  | .vundefined, .vundefined => true
  | _, _ => false

/-- The own enumerable index properties of a JS array, as an association
list: element `i` appears under the key `toString i`. -/
def arrEntries (items : List Value) : List (String × Value) :=
  items.enum.map (fun p => (toString p.1, p.2))

/-- The source's helper (dist/index.js line 53): `property in data`.  The JS
`in` operator reports own AND inherited properties; `inherited` holds the
explicit prototype-chain entries of the modelled object (built-in
`Object.prototype` function members are not representable as `Value`s and
are listed only when a scenario needs them).  On arrays it reports the index
properties and `length` (`Array.prototype` members are likewise omitted).
On primitive data the JS `in` operator would itself throw a TypeError; the
source only ever applies `hasProperty` behind `typeof === 'object'` guards,
and the model returns `false` there. -/
def hasProperty (data : Value) (property : String) : Bool :=
  match data with
  | .vobj own inh =>
      own.any (fun p => p.1 == property) || inh.any (fun p => p.1 == property)
  | .varr items =>
      (arrEntries items).any (fun p => p.1 == property) || property == "length"
  | _ => false

/-- JS property read `data[property]`: own properties shadow inherited ones;
an absent property reads as `undefined`. -/
def getProp (data : Value) (property : String) : Value :=
  match data with
  | .vobj own inh =>
      match List.lookup property own with
      | some v => v
      | none => (List.lookup property inh).getD .vundefined
  | .varr items =>
      match List.lookup property (arrEntries items) with
      | some v => v
      | none => if property == "length" then .vnum items.length else .vundefined
  | _ => .vundefined

/-- Models lodash `camelCase` on the snake_case identifiers this library
feeds it: underscore-separated words are joined, the first word lower-cased
and each later word capitalised. -/
def camelCase (s : String) : String :=
  match (s.data.splitOn (Char.ofNat 95)).filter (fun w => w ≠ []) with
  | [] => ""
  | w :: ws =>
      ⟨w.map Char.toLower ++ (ws.map (fun t =>
        match t with
        | [] => []
        | c :: cs => Char.toUpper c :: cs)).flatten⟩

/-- Assign `k ↦ v` in an association list, overwriting an existing binding
in place or appending; this is how successive writes `result[k] = v` behave
inside lodash `mapKeys`. -/
def setKey (l : List (String × Value)) (k : String) (v : Value) :
    List (String × Value) :=
  match l with
  | [] => [(k, v)]
  | (k', v') :: rest => if k' == k then (k, v) :: rest else (k', v') :: setKey rest k v

/-- lodash `mapKeys(obj, (_, key) => camelCase(key))`: rebuild the object,
renaming every own enumerable key; on a key collision the later binding
wins. -/
def mapKeysCamel (own : List (String × Value)) : List (String × Value) :=
  own.foldl (fun acc p => setKey acc (camelCase p.1) p.2) []

/-- An agent (validator).  One constructor per concrete class of
dist/index.js; the constructor names follow the exported factory
functions. -/
inductive Agent : Type where
  | stringAgent
  | numberAgent
  | booleanAgent
  | nullAgent
  | unionAgent (u v : Agent)
  | arrayAgent (itemAgent : Agent)
  | enumAgent (enumObj : List (String × Value))
  | objectAgent (objShape : List (String × Agent))
  | unsnakeAgent (objAgent : Agent)
  | conversionAgent (inputAgent : Agent) (converter : Value → Value) (outputAgent : Agent)

theorem sizeOf_lookup_lt (shape : List (String × Agent)) (k : String) (ag : Agent)
    (h : List.lookup k shape = some ag) : sizeOf ag < sizeOf shape := by
  induction shape with
  | nil => simp [List.lookup] at h
  | cons p rest ih =>
      obtain ⟨k₁, a₁⟩ := p
      simp only [List.lookup] at h
      cases hk : k == k₁ with
      | true =>
          rw [hk] at h
          simp at h
          subst h
          simp
          omega
      | false =>
          rw [hk] at h
          simp at h
          have := ih h
          simp
          omega

mutual

/-- `verifyStamp`, translated per class from dist/index.js:
primitives check `typeof`; `UnionAgent` is the disjunction of its
direct reports; `ArrayAgent` demands an array whose every element verifies;
`EnumAgent` tests `Object.values(enumObj).includes(requested)`;
`ObjectAgent` demands `typeof requested === 'object' && requested !== null`
and then `Object.entries(objShape).every(...)` (see `verifyFields`);
`UnsnakeAgent` delegates to its object agent; `ConversionAgent` delegates to
its output agent. -/
def verifyStamp : Agent → Value → Bool
  | .stringAgent, v => match v with | .vstr _ => true | _ => false
  | .numberAgent, v => match v with | .vnum _ => true | _ => false
  | .booleanAgent, v => match v with | .vbool _ => true | _ => false
  | .nullAgent, v => match v with | .vnull => true | _ => false
  | .unionAgent u w, v => verifyStamp u v || verifyStamp w v
  | .arrayAgent item, v =>
      match v with
      | .varr items => items.all (fun x => verifyStamp item x)
      | _ => false
  | .enumAgent enumObj, v =>
      (enumObj.map Prod.snd).any (fun ev => jsStrictEq ev v)
  | .objectAgent shape, v =>
      match v with
      | .vobj _ _ => verifyFields shape v
      | .varr _ => verifyFields shape v
      | _ => false
  | .unsnakeAgent oa, v => verifyStamp oa v
  | .conversionAgent _ _ outA, v => verifyStamp outA v
termination_by a _ => 2 * sizeOf a
decreasing_by
  all_goals simp_wf
  all_goals try simp
  all_goals omega

/-- `Object.entries(objShape).every(([property, agent]) =>
hasProperty(requested, property) && agent.verifyStamp(requested[property]))`. -/
def verifyFields : List (String × Agent) → Value → Bool
  | [], _ => true
  | (property, agent) :: rest, requested =>
      (hasProperty requested property && verifyStamp agent (getProp requested property))
        && verifyFields rest requested
termination_by shape _ => 2 * sizeOf shape + 1
decreasing_by
  all_goals simp_wf
  all_goals try simp
  all_goals omega

/-- `makeStampable`, translated per class from dist/index.js: the value the
source's canonicalization computes whenever it does not throw.  (The source
is not total here: in `ObjectAgent.makeStampable`, `this.objShape[key]` is a
plain JS property access, so a candidate own key that the shape does not
bind but that names an inherited `Object.prototype` member — `constructor`,
`toString`, `__proto__`, … — yields that member instead of `undefined`, and
line 159 then calls `.makeStampable` on it and throws a TypeError.  The
`List.lookup` below covers the declared bindings only; the companion
predicate `makeThrows` characterises exactly the candidates on which the
source throws instead, and theorems about program behaviour carry
`makeThrows … = false` hypotheses where totality matters.)
The base default is the identity.  `UnionAgent` canonicalises via the first
direct report whose `canStamp` succeeds.  `ArrayAgent` maps itself over
arrays.  `ObjectAgent` guards
`typeof requested !== 'object' || requested === null` (returning the
literal `false` in that case, as the source does) and otherwise applies
lodash `mapValues`, sending the value at each own key `k` through
`objShape[k].makeStampable` when the shape binds `k`; note that `mapValues`
over an array produces a plain object keyed by indices, and its result
never keeps the input's prototype.  `UnsnakeAgent` camel-cases the
top-level keys and delegates.  `ConversionAgent` converts exactly when the
raw candidate verifies with the input agent. -/
def makeStampable : Agent → Value → Value
  | .stringAgent, v => v
  | .numberAgent, v => v
  | .booleanAgent, v => v
  | .nullAgent, v => v
  | .unionAgent u w, v =>
      if verifyStamp u (makeStampable u v) then makeStampable u v
      else if verifyStamp w (makeStampable w v) then makeStampable w v
      else v
  | .arrayAgent item, v =>
      match v with
      | .varr items => .varr (items.map (fun x => makeStampable item x))
      | _ => v
  | .enumAgent _, v => v
  | .objectAgent shape, v =>
      match v with
      | .vobj own _ =>
          .vobj (own.map (fun p =>
            (p.1, match hl : List.lookup p.1 shape with
                  | some ag => makeStampable ag p.2
                  | none => p.2))) []
      | .varr items =>
          .vobj ((arrEntries items).map (fun p =>
            (p.1, match hl : List.lookup p.1 shape with
                  | some ag => makeStampable ag p.2
                  | none => p.2))) []
      | _ => .vbool false
  | .unsnakeAgent oa, v =>
      match v with
      | .vobj own _ => makeStampable oa (.vobj (mapKeysCamel own) [])
      | .varr items => makeStampable oa (.vobj (mapKeysCamel (arrEntries items)) [])
      | _ => v
  | .conversionAgent inA fn _, v =>
      if verifyStamp inA v then fn v else v
termination_by a _ => 2 * sizeOf a
decreasing_by
  all_goals simp_wf
  all_goals try simp
  all_goals try omega
  all_goals (have h9 := sizeOf_lookup_lt _ _ _ hl; simp at h9; omega)

end

/-- `BaseAgent.canStamp` (inherited by every agent, never overridden):
canonicalise, then check. -/
def canStamp (a : Agent) (requested : Value) : Bool :=
  verifyStamp a (makeStampable a requested)

/-- The enumerable-or-not members every plain object literal inherits from
`Object.prototype` (plus the `__proto__` accessor): for such a key `k`,
`objShape[k]` is not `undefined` even when the shape does not bind `k`. -/
def protoKeys : List String :=
  ["constructor", "hasOwnProperty", "isPrototypeOf", "propertyIsEnumerable",
   "toLocaleString", "toString", "valueOf", "__proto__",
   "__defineGetter__", "__defineSetter__", "__lookupGetter__", "__lookupSetter__"]

/-- Does the source's `makeStampable` throw a TypeError on this candidate?
`ObjectAgent.makeStampable` throws when a candidate own key is not bound in
`objShape` but names an inherited `Object.prototype` member: then
`this.objShape[key] === undefined` is false (index.js:157) and line 159
calls `.makeStampable` on that member, which is not an agent.  The throw
propagates: through array elements, through the object values at bound shape
keys, through `UnsnakeAgent`'s delegation after key renaming, and through
`UnionAgent`'s `canStamp` probes (the left probe runs first; the right probe
runs only when the left probe completes and fails).  Primitive and enum
agents never throw, and `ConversionAgent.makeStampable` only runs the
converter, which the spec requires to be total. -/
def makeThrows : Agent → Value → Bool
  | .stringAgent, _ => false
  | .numberAgent, _ => false
  | .booleanAgent, _ => false
  | .nullAgent, _ => false
  | .enumAgent _, _ => false
  | .unionAgent u w, v =>
      makeThrows u v || (!canStamp u v && makeThrows w v)
  | .arrayAgent item, v =>
      match v with
      | .varr items => items.any (fun x => makeThrows item x)
      | _ => false
  | .objectAgent shape, v =>
      match v with
      | .vobj own _ =>
          own.any (fun p =>
            match hl : List.lookup p.1 shape with
            | some ag => makeThrows ag p.2
            | none => protoKeys.any (fun q => q == p.1))
      | .varr items =>
          (arrEntries items).any (fun p =>
            match hl : List.lookup p.1 shape with
            | some ag => makeThrows ag p.2
            | none => protoKeys.any (fun q => q == p.1))
      | _ => false
  | .unsnakeAgent oa, v =>
      match v with
      | .vobj own _ => makeThrows oa (.vobj (mapKeysCamel own) [])
      | .varr items => makeThrows oa (.vobj (mapKeysCamel (arrEntries items)) [])
      | _ => false
  | .conversionAgent _ _ _, _ => false
termination_by a _ => 2 * sizeOf a
decreasing_by
  all_goals simp_wf
  all_goals try simp
  all_goals try omega
  all_goals (have h9 := sizeOf_lookup_lt _ _ _ hl; simp at h9; omega)

/-- The data carried by the `Error` that `stamp` throws: its message
interpolates the rejected value and the rejecting agent
(`` `${requested} cannot be stamped by agent ${this}` ``). -/
structure ValidationError : Type where
  rejected : Value
  agent : Agent

/-- `stamp`: the base algorithm makes the value stampable, verifies it and
returns it, throwing otherwise; `ConversionAgent.stamp` overrides this, so
conversion agents check the RAW candidate against the input agent's
`verifyStamp` and, on success, return the converter's result directly
without consulting the output agent. -/
def stamp (a : Agent) (requested : Value) : Except ValidationError Value :=
  match a with
  | .conversionAgent inA fn outA =>
      if verifyStamp inA requested then .ok (fn requested)
      else .error ⟨requested, .conversionAgent inA fn outA⟩
  | other =>
      if verifyStamp other (makeStampable other requested) then
        .ok (makeStampable other requested)
      else .error ⟨requested, other⟩

/-- The transformation lodash `mapValues` applies at key `k` inside
`ObjectAgent.makeStampable`: route the value through the shape's agent for
`k` when there is one, else keep it. -/
def applyShape (shape : List (String × Agent)) (k : String) (v : Value) : Value :=
  match List.lookup k shape with
  | some ag => makeStampable ag v
  | none => v

/-- Key-nodup test for association lists (TypeScript `Record` shapes bind
each key once). -/
def nodupKeys {α : Type} : List (String × α) → Bool
  | [] => true
  | p :: rest => (!rest.any (fun q => q.1 == p.1)) && nodupKeys rest

mutual

/-- Agents built from primitives, unions, arrays, enums and objects only —
no `ConversionAgent` and no `UnsnakeAgent` — whose object shapes bind every
field name at most once (as TypeScript `Record` shapes do). -/
def structuralOnly : Agent → Bool
  | .stringAgent => true
  | .numberAgent => true
  | .booleanAgent => true
  | .nullAgent => true
  | .unionAgent u w => structuralOnly u && structuralOnly w
  | .arrayAgent i => structuralOnly i
  | .enumAgent _ => true
  | .objectAgent shape => nodupKeys shape && structuralShape shape
  | .unsnakeAgent _ => false
  | .conversionAgent _ _ _ => false
termination_by a => 2 * sizeOf a
decreasing_by
  all_goals simp_wf
  all_goals try simp
  all_goals omega

/-- All agents of a shape are `structuralOnly`. -/
def structuralShape : List (String × Agent) → Bool
  | [] => true
  | (_, a) :: rest => structuralOnly a && structuralShape rest
termination_by shape => 2 * sizeOf shape + 1
decreasing_by
  all_goals simp_wf
  all_goals try simp
  all_goals omega

end

/-- Digits-to-number accumulator for `decimalToRat`. -/
def digitsToNat (cs : List Char) : ℕ :=
  cs.foldl (fun acc c => acc * 10 + (c.toNat - Char.toNat (Char.ofNat 48))) 0

/-- Modelled from JavaScript's `parseFloat` (a library-external stdlib
function used by the spec's Conversion example) on plain decimal literals
`"d…d"` or `"d…d.d…d"`. -/
def decimalToRat (s : String) : ℚ :=
  match s.data.splitOn (Char.ofNat 46) with
  | [i] => (digitsToNat i : ℚ)
  | [i, f] => (digitsToNat i : ℚ) + (digitsToNat f : ℚ) / (10 ^ f.length)
  | _ => 0

/-- `parseFloat` as a converter function on values: conversion agents hand it
only input-verified (string) candidates. -/
def parseFloat (v : Value) : Value :=
  match v with
  | .vstr s => .vnum (decimalToRat s)
  | _ => .vundefined

/-- The spec's Conversion example: `Conversion(In=String, Out=Number,
fn=parseFloat)`. -/
def parseFloatConversion : Agent :=
  .conversionAgent .stringAgent parseFloat .numberAgent

/-- A pure conversion function that appends `"x"` to a string. -/
def appendX : Value → Value :=
  fun v => match v with | .vstr s => .vstr (s ++ "x") | w => w

/-- A Conversion validator whose converter's output is again recognized by
the input validator: `Conversion(In=String, Out=String, fn=appendX)`. -/
def appendXConversion : Agent :=
  .conversionAgent .stringAgent appendX .stringAgent

/-- A two-entry enum domain `{Red: "r"}` used to separate the key set from
the value set. -/
def enumColor : List (String × Value) := [("Red", .vstr "r")]

theorem lookup_mem {α : Type} {l : List (String × α)} {k : String} {v : α}
    (h : List.lookup k l = some v) : (k, v) ∈ l := by
  induction l with
  | nil => simp [List.lookup] at h
  | cons p rest ih =>
      obtain ⟨k₁, v₁⟩ := p
      simp only [List.lookup] at h
      cases hk : k == k₁ with
      | true =>
          rw [hk] at h
          simp at h hk
          subst hk
          subst h
          exact List.mem_cons_self _ _
      | false =>
          rw [hk] at h
          simp at h
          exact List.mem_cons_of_mem _ (ih h)

theorem lookup_eq_of_mem_nodup {α : Type} {l : List (String × α)} {k : String} {v : α}
    (hnd : nodupKeys l = true) (hm : (k, v) ∈ l) : List.lookup k l = some v := by
  induction l with
  | nil => simp at hm
  | cons p rest ih =>
      obtain ⟨k₁, v₁⟩ := p
      simp only [nodupKeys, Bool.and_eq_true, Bool.not_eq_true'] at hnd
      rcases List.mem_cons.mp hm with h | h
      · rw [show k = k₁ from congrArg Prod.fst h, show v = v₁ from congrArg Prod.snd h]
        simp [List.lookup]
      · have hk : (k == k₁) = false := by
          by_contra hcon
          simp only [Bool.not_eq_false, beq_iff_eq] at hcon
          subst hcon
          have : rest.any (fun q => q.1 == k) = true :=
            List.any_eq_true.mpr ⟨(k, v), h, by simp⟩
          rw [this] at hnd
          simp at hnd
        simp only [List.lookup, hk]
        exact ih hnd.2 h

theorem lookup_map_vals (l : List (String × Value)) (f : String → Value → Value) (k : String) :
    List.lookup k (l.map (fun p => (p.1, f p.1 p.2)))
      = (List.lookup k l).map (fun v => f k v) := by
  induction l with
  | nil => simp [List.lookup]
  | cons p rest ih =>
      obtain ⟨k₁, v₁⟩ := p
      simp only [List.map, List.lookup]
      cases hk : k == k₁ with
      | true =>
          simp at hk
          subst hk
          simp
      | false => simpa using ih

theorem any_key_map_vals (l : List (String × Value)) (f : String → Value → Value) (k : String) :
    (l.map (fun p => (p.1, f p.1 p.2))).any (fun p => p.1 == k)
      = l.any (fun p => p.1 == k) := by
  induction l with
  | nil => simp
  | cons p rest ih => simp_all

theorem arrEntries_map (f : Value → Value) (items : List Value) :
    arrEntries (items.map f) = (arrEntries items).map (fun p => (p.1, f p.2)) := by
  simp [arrEntries, List.enum_map, List.map_map]

theorem mem_of_lookup_arrEntries {items : List Value} {k : String} {v : Value}
    (h : List.lookup k (arrEntries items) = some v) : v ∈ items := by
  have hm := lookup_mem h
  simp only [arrEntries, List.mem_map] at hm
  obtain ⟨⟨i, x⟩, hmem, hx⟩ := hm
  have hxv : x = v := congrArg Prod.snd hx
  subst hxv
  exact List.getElem?_mem (List.mk_mem_enum_iff_getElem?.mp hmem)

theorem make_prim_string (v : Value) : makeStampable .stringAgent v = v := by
  simp [makeStampable]

theorem make_prim_number (v : Value) : makeStampable .numberAgent v = v := by
  simp [makeStampable]

theorem make_prim_boolean (v : Value) : makeStampable .booleanAgent v = v := by
  simp [makeStampable]

theorem make_prim_null (v : Value) : makeStampable .nullAgent v = v := by
  simp [makeStampable]

theorem make_enum (eo : List (String × Value)) (v : Value) :
    makeStampable (.enumAgent eo) v = v := by
  simp [makeStampable]

theorem make_union (u w : Agent) (v : Value) :
    makeStampable (.unionAgent u w) v =
      if canStamp u v then makeStampable u v
      else if canStamp w v then makeStampable w v
      else v := by
  simp [makeStampable, canStamp]

theorem verify_union (u w : Agent) (v : Value) :
    verifyStamp (.unionAgent u w) v = (verifyStamp u v || verifyStamp w v) := by
  simp [verifyStamp]

theorem make_array_varr (item : Agent) (items : List Value) :
    makeStampable (.arrayAgent item) (.varr items)
      = .varr (items.map (fun x => makeStampable item x)) := by
  simp [makeStampable]

theorem make_array_not_arr (item : Agent) (v : Value)
    (h : ∀ items, v ≠ .varr items) : makeStampable (.arrayAgent item) v = v := by
  cases v <;> first | exact absurd rfl (h _) | simp [makeStampable]

theorem verify_array_varr (item : Agent) (items : List Value) :
    verifyStamp (.arrayAgent item) (.varr items)
      = items.all (fun x => verifyStamp item x) := by
  simp [verifyStamp]

theorem verify_array_not_arr (item : Agent) (v : Value)
    (h : ∀ items, v ≠ .varr items) : verifyStamp (.arrayAgent item) v = false := by
  cases v <;> first | exact absurd rfl (h _) | simp [verifyStamp]

theorem make_object_vobj (shape : List (String × Agent)) (own inh : List (String × Value)) :
    makeStampable (.objectAgent shape) (.vobj own inh)
      = .vobj (own.map (fun p => (p.1, applyShape shape p.1 p.2))) [] := by
  simp only [makeStampable]
  congr 1
  apply List.map_congr_left
  intro p _
  congr 1
  unfold applyShape
  cases List.lookup p.1 shape <;> rfl

theorem make_object_varr (shape : List (String × Agent)) (items : List Value) :
    makeStampable (.objectAgent shape) (.varr items)
      = .vobj ((arrEntries items).map (fun p => (p.1, applyShape shape p.1 p.2))) [] := by
  simp only [makeStampable]
  congr 1
  apply List.map_congr_left
  intro p _
  congr 1
  unfold applyShape
  cases List.lookup p.1 shape <;> rfl

theorem make_object_not_obj (shape : List (String × Agent)) (v : Value)
    (h : isObjectTyped v = false) :
    makeStampable (.objectAgent shape) v = .vbool false := by
  cases v <;> simp_all [makeStampable, isObjectTyped]

theorem verify_object_obj (shape : List (String × Agent)) (v : Value)
    (h : isObjectTyped v = true) :
    verifyStamp (.objectAgent shape) v = verifyFields shape v := by
  cases v <;> simp_all [verifyStamp, isObjectTyped]

theorem verify_object_not_obj (shape : List (String × Agent)) (v : Value)
    (h : isObjectTyped v = false) :
    verifyStamp (.objectAgent shape) v = false := by
  cases v <;> simp_all [verifyStamp, isObjectTyped]

theorem verifyFields_eq_true_iff (shape : List (String × Agent)) (req : Value) :
    verifyFields shape req = true ↔
      ∀ p ∈ shape, hasProperty req p.1 = true ∧ verifyStamp p.2 (getProp req p.1) = true := by
  induction shape with
  | nil => simp [verifyFields]
  | cons p rest ih =>
      obtain ⟨property, agent⟩ := p
      simp [verifyFields, Bool.and_eq_true, ih, List.forall_mem_cons]

theorem canStamp_union (p q : Agent) (z : Value) :
    canStamp (.unionAgent p q) z
      = (canStamp p z || canStamp q z || verifyStamp p z || verifyStamp q z) := by
  show verifyStamp (.unionAgent p q) (makeStampable (.unionAgent p q) z) = _
  rw [make_union]
  by_cases h1 : canStamp p z = true
  · rw [if_pos h1, verify_union]
    have e1 : verifyStamp p (makeStampable p z) = true := h1
    simp [e1, h1]
  · by_cases h2 : canStamp q z = true
    · rw [if_neg h1, if_pos h2, verify_union]
      simp only [Bool.not_eq_true] at h1
      have e2 : verifyStamp q (makeStampable q z) = true := h2
      simp [h1, h2, e2]
    · rw [if_neg h1, if_neg h2, verify_union]
      simp only [Bool.not_eq_true] at h1 h2
      have e1 : verifyStamp p (makeStampable p z) = false := h1
      have e2 : verifyStamp q (makeStampable q z) = false := h2
      simp [canStamp, e1, e2]

theorem arrEntries_keys (items : List Value) :
    (arrEntries items).map Prod.fst = (List.range items.length).map toString := by
  simp [arrEntries, List.map_map]
  rw [show (Prod.fst ∘ fun p => ((toString p.1 : String), p.2)) = toString ∘ Prod.fst from rfl]
  rw [← List.map_map]
  simp [List.enum_map_fst]

theorem decimalToRat_three_point_five : decimalToRat "3.5" = 7 / 2 := by
  unfold decimalToRat
  have hs : "3.5".data.splitOn (Char.ofNat 46) = [[Char.ofNat 51], [Char.ofNat 53]] := by
    decide
  rw [hs]
  have h3 : digitsToNat [Char.ofNat 51] = 3 := by decide
  have h5 : digitsToNat [Char.ofNat 53] = 5 := by decide
  simp [h3, h5]
  norm_num

/-- C1: `ConversionAgent.stamp` checks the raw candidate with the input
agent's `verifyStamp` (no canonicalization first); on success it returns the
converter's result directly, never consulting the output agent, and on
failure it throws at once.  In particular for
`Conversion(In=String, Out=Number, fn=parseFloat)`, materializing `"3.5"`
yields the number 3.5 while materializing the number 3.5 fails. -/
theorem conversion_materialize_semantics :
    (∀ (inA outA : Agent) (fn : Value → Value) (v : Value),
        stamp (.conversionAgent inA fn outA) v =
          if verifyStamp inA v then Except.ok (fn v)
          else Except.error ⟨v, .conversionAgent inA fn outA⟩)
    ∧ stamp parseFloatConversion (.vstr "3.5") = Except.ok (.vnum (7 / 2))
    ∧ stamp parseFloatConversion (.vnum (7 / 2))
        = Except.error ⟨.vnum (7 / 2), parseFloatConversion⟩ := by
  refine ⟨fun inA outA fn v => rfl, ?_, ?_⟩
  · simp [stamp, parseFloatConversion, verifyStamp, parseFloat, decimalToRat_three_point_five]
  · simp [stamp, parseFloatConversion, verifyStamp]

/-- C5: for every agent of every variant, the public acceptance check
`canStamp` is exactly `makeStampable` followed by `verifyStamp` — the base
class defines it that way and no subclass overrides it. -/
theorem accepts_eq_recognizes_of_canonicalize (a : Agent) (v : Value) :
    canStamp a v = verifyStamp a (makeStampable a v) := rfl

/-- C6: `UnionAgent.makeStampable` canonicalizes via the left child when the
left child `canStamp`s the raw candidate, otherwise via the right child when
it `canStamp`s it, otherwise returns the candidate unchanged — so the left
child always wins ties. -/
theorem union_canonicalize_left_first (l r : Agent) (v : Value) :
    makeStampable (.unionAgent l r) v =
      if canStamp l v then makeStampable l v
      else if canStamp r v then makeStampable r v
      else v :=
  make_union l r v

/-- C7: `ArrayAgent.verifyStamp` is false on non-arrays and, on an array,
holds iff every element verifies with the item agent; the empty array always
verifies. -/
theorem array_recognizes_spec (item : Agent) :
    (∀ items, verifyStamp (.arrayAgent item) (.varr items)
        = items.all (fun x => verifyStamp item x))
    ∧ (∀ v, (∀ items, v ≠ .varr items) → verifyStamp (.arrayAgent item) v = false)
    ∧ verifyStamp (.arrayAgent item) (.varr []) = true :=
  ⟨fun items => verify_array_varr item items,
   fun v h => verify_array_not_arr item v h,
   by simp [verifyStamp]⟩

/-- Witness for C7's non-array clause at the concrete non-array `1`. -/
theorem array_recognizes_spec_witness :
    verifyStamp (.arrayAgent .stringAgent) (.vnum 1) = false :=
  (array_recognizes_spec .stringAgent).2.1 (.vnum 1) (fun items => by simp)

/-- C8: `EnumAgent.verifyStamp` is a strict-equality membership test against
`Object.values(enumObj)` — the value set, never the key set: with the domain
`{Red: "r"}`, the value `"r"` is recognized and the key `"Red"` is not. -/
theorem enum_recognizes_value_set :
    (∀ (eo : List (String × Value)) (v : Value),
        verifyStamp (.enumAgent eo) v = true ↔ ∃ p ∈ eo, jsStrictEq p.2 v = true)
    ∧ verifyStamp (.enumAgent enumColor) (.vstr "r") = true
    ∧ verifyStamp (.enumAgent enumColor) (.vstr "Red") = false := by
  refine ⟨fun eo v => ?_, by simp [verifyStamp, enumColor, jsStrictEq], by
    simp [verifyStamp, enumColor, jsStrictEq]⟩
  simp only [verifyStamp, List.any_eq_true, List.mem_map]
  constructor
  · rintro ⟨ev, ⟨⟨a, b⟩, hp, hev⟩, h⟩
    subst hev
    exact ⟨(a, b), hp, h⟩
  · rintro ⟨⟨a, b⟩, hp, h⟩
    exact ⟨b, ⟨(a, b), hp, rfl⟩, h⟩

/-- C10: for `Conversion(In=String, Out=Number, fn=parseFloat)` the number
3.5 is accepted (`accepts` canonicalizes — a no-op here — and then asks the
output agent) yet `materialize` throws on it, because `stamp` gates on the
input agent's `verifyStamp` alone. -/
theorem conversion_accepts_but_materialize_throws :
    canStamp parseFloatConversion (.vnum (7 / 2)) = true
    ∧ stamp parseFloatConversion (.vnum (7 / 2))
        = Except.error ⟨.vnum (7 / 2), parseFloatConversion⟩ := by
  constructor
  · simp [canStamp, parseFloatConversion, makeStampable, verifyStamp]
  · simp [stamp, parseFloatConversion, verifyStamp]

/-- C2 counterexample: a candidate that lacks the shape key `"a"` as an own
property but inherits it through the prototype chain IS recognized, because
`hasProperty` is the JS `in` operator; `hasProperty` likewise answers true
for the inherited-only key. -/
theorem object_recognizes_inherited_counterexample :
    verifyStamp (.objectAgent [("a", .nullAgent)]) (.vobj [] [("a", .vnull)]) = true
    ∧ hasProperty (.vobj [] [("a", .vnull)]) "a" = true
    ∧ ([] : List (String × Value)).any (fun p => p.1 == "a") = false := by
  refine ⟨?_, by simp [hasProperty], by simp⟩
  simp [verifyStamp, verifyFields, hasProperty, getProp, List.lookup]

/-- C2 (amended): `Object(shape).recognizes(v)` is false whenever `v` has a
shape key neither as an own property nor anywhere on its prototype chain —
equivalently, recognition forces `hasProperty v k` for every shape key `k`,
where the exposed helper `hasProperty` answers the JS `in` question (own OR
inherited), not the own-property question. -/
theorem object_recognizes_requires_in (shape : List (String × Agent)) (v : Value)
    (k : String) (ag : Agent) (hmem : (k, ag) ∈ shape)
    (hrec : verifyStamp (.objectAgent shape) v = true) :
    hasProperty v k = true := by
  have hobj : isObjectTyped v = true := by
    cases v <;> simp_all [verifyStamp, isObjectTyped]
  rw [verify_object_obj _ _ hobj] at hrec
  exact ((verifyFields_eq_true_iff shape v).mp hrec (k, ag) hmem).1

/-- Witness for C2's amended theorem at a concrete shape and candidate. -/
theorem object_recognizes_requires_in_witness :
    hasProperty (.vobj [("a", .vnull)] []) "a" = true :=
  object_recognizes_requires_in [("a", .nullAgent)] (.vobj [("a", .vnull)] [])
    "a" .nullAgent (by simp)
    (by simp [verifyStamp, verifyFields, hasProperty, getProp, List.lookup])

/-- C3 counterexample: `ObjectAgent.makeStampable` does NOT return a
non-record candidate unchanged — it returns the boolean `false`
(dist/index.js line 155). -/
theorem object_canonicalize_nonrecord_counterexample :
    makeStampable (.objectAgent []) (.vstr "hi") = .vbool false
    ∧ makeStampable (.objectAgent []) (.vstr "hi") ≠ .vstr "hi" := by
  constructor
  · simp [makeStampable]
  · simp [makeStampable]

/-- C3 (amended): for every candidate that is not object-typed (not a
non-null record and not an array — e.g. a string, a number, or null),
`ObjectAgent.makeStampable` returns the boolean `false` rather than the
candidate. -/
theorem object_canonicalize_nonrecord (shape : List (String × Agent)) (v : Value)
    (h : isObjectTyped v = false) :
    makeStampable (.objectAgent shape) v = .vbool false :=
  make_object_not_obj shape v h

/-- Witness for C3's amended theorem at the concrete candidate `1`. -/
theorem object_canonicalize_nonrecord_witness :
    makeStampable (.objectAgent []) (.vnum 1) = .vbool false :=
  object_canonicalize_nonrecord [] (.vnum 1) (by simp [isObjectTyped])

/-- C4 counterexample: canonicalization is NOT idempotent on accepted data
for an arbitrary Conversion validator.  With
`Conversion(In=String, Out=String, fn=s => s + "x")` the candidate `"a"` is
accepted, but canonicalizing twice gives `"axx"` while once gives `"ax"`. -/
theorem canonicalize_idempotence_counterexample :
    canStamp appendXConversion (.vstr "a") = true
    ∧ makeStampable appendXConversion (makeStampable appendXConversion (.vstr "a"))
        ≠ makeStampable appendXConversion (.vstr "a") := by
  constructor
  · simp [canStamp, appendXConversion, makeStampable, verifyStamp, appendX]
  · simp [appendXConversion, makeStampable, verifyStamp, appendX]

/-- The own enumerable entries of an object-typed value, as the association
list lodash `mapValues` iterates over. -/
def ownEntries : Value → List (String × Value)
  | .vobj own _ => own
  | .varr items => arrEntries items
  | _ => []

theorem lookup_isSome_eq_any {α : Type} (l : List (String × α)) (k : String) :
    (List.lookup k l).isSome = l.any (fun p => p.1 == k) := by
  induction l with
  | nil => simp [List.lookup]
  | cons p rest ih =>
      obtain ⟨k₁, v₁⟩ := p
      simp only [List.lookup, List.any_cons]
      cases hk : k == k₁ with
      | true =>
          simp at hk
          subst hk
          simp
      | false =>
          have : (k₁ == k) = false := by
            simp at hk ⊢
            exact fun h => hk h.symm
          simp [this, ih]

theorem lookup_some_of_any {α : Type} {l : List (String × α)} {k : String}
    (h : l.any (fun p => p.1 == k) = true) : ∃ v, List.lookup k l = some v := by
  have := lookup_isSome_eq_any l k
  rw [h] at this
  exact Option.isSome_iff_exists.mp this

theorem any_of_lookup_some {α : Type} {l : List (String × α)} {k : String} {v : α}
    (h : List.lookup k l = some v) : l.any (fun p => p.1 == k) = true := by
  have := lookup_isSome_eq_any l k
  rw [h] at this
  exact this.symm

theorem sizeOf_mem_shape {shape : List (String × Agent)} {k : String} {a : Agent}
    (h : (k, a) ∈ shape) : sizeOf a < sizeOf shape := by
  have h1 := List.sizeOf_lt_of_mem h
  simp at h1
  omega

theorem structuralShape_mem {shape : List (String × Agent)} {k : String} {a : Agent}
    (hs : structuralShape shape = true) (h : (k, a) ∈ shape) :
    structuralOnly a = true := by
  induction shape with
  | nil => simp at h
  | cons p rest ih =>
      obtain ⟨k₁, a₁⟩ := p
      simp only [structuralShape, Bool.and_eq_true] at hs
      rcases List.mem_cons.mp h with h | h
      · rw [show a = a₁ from congrArg Prod.snd h]
        exact hs.1
      · exact ih hs.2 h

theorem structural_object_parts {shape : List (String × Agent)}
    (h : structuralOnly (.objectAgent shape) = true) :
    nodupKeys shape = true ∧ structuralShape shape = true := by
  simpa [structuralOnly, Bool.and_eq_true] using h

theorem structural_union_parts {u w : Agent}
    (h : structuralOnly (.unionAgent u w) = true) :
    structuralOnly u = true ∧ structuralOnly w = true := by
  simpa [structuralOnly, Bool.and_eq_true] using h

theorem structural_array_part {i : Agent}
    (h : structuralOnly (.arrayAgent i) = true) : structuralOnly i = true := by
  simpa [structuralOnly] using h

theorem hasProp_plain (l : List (String × Value)) (k : String) :
    hasProperty (.vobj l []) k = l.any (fun p => p.1 == k) := by
  simp [hasProperty]

theorem getProp_plain_some {l : List (String × Value)} {k : String} {v : Value}
    (h : List.lookup k l = some v) : getProp (.vobj l []) k = v := by
  simp [getProp, h]

theorem make_object_objTyped (shape : List (String × Agent)) (z : Value)
    (hz : isObjectTyped z = true) :
    makeStampable (.objectAgent shape) z
      = .vobj ((ownEntries z).map (fun p => (p.1, applyShape shape p.1 p.2))) [] := by
  cases z with
  | vobj own inh => rw [make_object_vobj]; rfl
  | varr items => rw [make_object_varr]; rfl
  | _ => simp [isObjectTyped] at hz

theorem hasProp_of_own_any {z : Value} {k : String}
    (hz : isObjectTyped z = true)
    (h : (ownEntries z).any (fun p => p.1 == k) = true) : hasProperty z k = true := by
  cases z <;> simp_all [isObjectTyped, hasProperty, ownEntries]

theorem getProp_of_own_lookup {z : Value} {k : String} {v : Value}
    (hz : isObjectTyped z = true)
    (h : List.lookup k (ownEntries z) = some v) : getProp z k = v := by
  cases z <;> simp_all [isObjectTyped, getProp, ownEntries]

theorem canStamp_object_iff (shape : List (String × Agent)) (z : Value)
    (hz : isObjectTyped z = true) :
    canStamp (.objectAgent shape) z = true ↔
      ∀ p ∈ shape, ∃ v₀, List.lookup p.1 (ownEntries z) = some v₀
        ∧ verifyStamp p.2 (applyShape shape p.1 v₀) = true := by
  unfold canStamp
  rw [make_object_objTyped shape z hz,
      verify_object_obj _ _ (by simp [isObjectTyped]),
      verifyFields_eq_true_iff]
  constructor
  · intro h p hp
    obtain ⟨hhas, hval⟩ := h p hp
    rw [hasProp_plain, any_key_map_vals] at hhas
    obtain ⟨v₀, hv₀⟩ := lookup_some_of_any hhas
    refine ⟨v₀, hv₀, ?_⟩
    have : List.lookup p.1 ((ownEntries z).map (fun q => (q.1, applyShape shape q.1 q.2)))
        = some (applyShape shape p.1 v₀) := by
      rw [lookup_map_vals, hv₀]
      rfl
    rwa [getProp_plain_some this] at hval
  · intro h p hp
    obtain ⟨v₀, hv₀, hval⟩ := h p hp
    constructor
    · rw [hasProp_plain, any_key_map_vals]
      exact any_of_lookup_some hv₀
    · have : List.lookup p.1 ((ownEntries z).map (fun q => (q.1, applyShape shape q.1 q.2)))
          = some (applyShape shape p.1 v₀) := by
        rw [lookup_map_vals, hv₀]
        rfl
      rwa [getProp_plain_some this]

theorem canStamp_object_not_obj (shape : List (String × Agent)) (z : Value)
    (hz : isObjectTyped z = false) :
    canStamp (.objectAgent shape) z = false := by
  unfold canStamp
  rw [make_object_not_obj _ _ hz, verify_object_not_obj _ _ (by simp [isObjectTyped])]

theorem canStamp_array_varr (d : Agent) (items : List Value) :
    canStamp (.arrayAgent d) (.varr items) = items.all (fun e => canStamp d e) := by
  unfold canStamp
  rw [make_array_varr, verify_array_varr, List.all_map]
  rfl

theorem canStamp_array_not_arr (d : Agent) (z : Value)
    (h : ∀ items, z ≠ .varr items) : canStamp (.arrayAgent d) z = false := by
  unfold canStamp
  rw [make_array_not_arr _ _ h, verify_array_not_arr _ _ h]

theorem canStamp_prim_string (v : Value) :
    canStamp .stringAgent v = verifyStamp .stringAgent v := by
  unfold canStamp
  rw [make_prim_string]

theorem canStamp_prim_number (v : Value) :
    canStamp .numberAgent v = verifyStamp .numberAgent v := by
  unfold canStamp
  rw [make_prim_number]

theorem canStamp_prim_boolean (v : Value) :
    canStamp .booleanAgent v = verifyStamp .booleanAgent v := by
  unfold canStamp
  rw [make_prim_boolean]

theorem canStamp_prim_null (v : Value) :
    canStamp .nullAgent v = verifyStamp .nullAgent v := by
  unfold canStamp
  rw [make_prim_null]

theorem canStamp_enum (eo : List (String × Value)) (v : Value) :
    canStamp (.enumAgent eo) v = verifyStamp (.enumAgent eo) v := by
  unfold canStamp
  rw [make_enum]

theorem jsStrictEq_not_obj {ev y : Value} (h : jsStrictEq ev y = true) :
    isObjectTyped y = false := by
  cases ev <;> cases y <;> simp_all [jsStrictEq, isObjectTyped]

theorem verify_string_not_obj {y : Value} (h : verifyStamp .stringAgent y = true) :
    isObjectTyped y = false := by
  cases y <;> simp_all [verifyStamp, isObjectTyped]

theorem verify_number_not_obj {y : Value} (h : verifyStamp .numberAgent y = true) :
    isObjectTyped y = false := by
  cases y <;> simp_all [verifyStamp, isObjectTyped]

theorem verify_boolean_not_obj {y : Value} (h : verifyStamp .booleanAgent y = true) :
    isObjectTyped y = false := by
  cases y <;> simp_all [verifyStamp, isObjectTyped]

theorem verify_null_not_obj {y : Value} (h : verifyStamp .nullAgent y = true) :
    isObjectTyped y = false := by
  cases y <;> simp_all [verifyStamp, isObjectTyped]

theorem verify_enum_not_obj {eo : List (String × Value)} {y : Value}
    (h : verifyStamp (.enumAgent eo) y = true) : isObjectTyped y = false := by
  simp only [verifyStamp, List.any_eq_true] at h
  obtain ⟨ev, _, hev⟩ := h
  exact jsStrictEq_not_obj hev

theorem make_nonobj_id_aux :
    ∀ (n : ℕ) (w : Agent) (x : Value), sizeOf w ≤ n →
      structuralOnly w = true → canStamp w x = true →
      isObjectTyped (makeStampable w x) = false → makeStampable w x = x := by
  intro n
  induction n with
  | zero =>
      intro w x hle
      cases w <;> simp at hle
  | succ n ih =>
      intro w x hle hso hcs hno
      cases w with
      | stringAgent => rw [make_prim_string]
      | numberAgent => rw [make_prim_number]
      | booleanAgent => rw [make_prim_boolean]
      | nullAgent => rw [make_prim_null]
      | enumAgent eo => rw [make_enum]
      | unionAgent u w =>
          obtain ⟨hsu, hsw⟩ := structural_union_parts hso
          have hszu : sizeOf u ≤ n := by simp at hle; omega
          have hszw : sizeOf w ≤ n := by simp at hle; omega
          rw [make_union] at hno ⊢
          by_cases h1 : canStamp u x = true
          · rw [if_pos h1] at hno ⊢
            exact ih u x hszu hsu h1 hno
          · rw [if_neg h1] at hno ⊢
            by_cases h2 : canStamp w x = true
            · rw [if_pos h2] at hno ⊢
              exact ih w x hszw hsw h2 hno
            · rw [if_neg h2]
      | arrayAgent i =>
          cases x with
          | varr items => rw [make_array_varr] at hno; simp [isObjectTyped] at hno
          | _ => apply make_array_not_arr; intro items; simp
      | objectAgent shape =>
          cases x with
          | vobj own inh => rw [make_object_vobj] at hno; simp [isObjectTyped] at hno
          | varr items => rw [make_object_varr] at hno; simp [isObjectTyped] at hno
          | _ =>
              exfalso
              rw [canStamp_object_not_obj _ _ (by simp [isObjectTyped])] at hcs
              exact Bool.false_ne_true hcs
      | unsnakeAgent oa => simp [structuralOnly] at hso
      | conversionAgent inA fn outA => simp [structuralOnly] at hso

/-- For a structural agent, when `canStamp` holds and the canonicalized value
is not object-typed, canonicalization was the identity. -/
theorem make_nonobj_id {w : Agent} {x : Value}
    (hso : structuralOnly w = true) (hcs : canStamp w x = true)
    (hno : isObjectTyped (makeStampable w x) = false) : makeStampable w x = x :=
  make_nonobj_id_aux (sizeOf w) w x le_rfl hso hcs hno

theorem canStamp_implies_verify_aux :
    ∀ (n : ℕ) (c : Agent) (z : Value), sizeOf c ≤ n →
      structuralOnly c = true → canStamp c z = true → verifyStamp c z = true := by
  intro n
  induction n with
  | zero =>
      intro c z hle
      cases c <;> simp at hle
  | succ n ih =>
      intro c z hle hso hcs
      cases c with
      | stringAgent => rwa [canStamp_prim_string] at hcs
      | numberAgent => rwa [canStamp_prim_number] at hcs
      | booleanAgent => rwa [canStamp_prim_boolean] at hcs
      | nullAgent => rwa [canStamp_prim_null] at hcs
      | enumAgent eo => rwa [canStamp_enum] at hcs
      | unionAgent p q =>
          obtain ⟨hsp, hsq⟩ := structural_union_parts hso
          have hszp : sizeOf p ≤ n := by simp at hle; omega
          have hszq : sizeOf q ≤ n := by simp at hle; omega
          rw [canStamp_union] at hcs
          rw [verify_union]
          simp only [Bool.or_eq_true] at hcs ⊢
          rcases hcs with ((h | h) | h) | h
          · exact Or.inl (ih p z hszp hsp h)
          · exact Or.inr (ih q z hszq hsq h)
          · exact Or.inl h
          · exact Or.inr h
      | arrayAgent i =>
          have hsi := structural_array_part hso
          have hszi : sizeOf i ≤ n := by simp at hle; omega
          cases z with
          | varr items =>
              rw [canStamp_array_varr] at hcs
              rw [verify_array_varr]
              simp only [List.all_eq_true] at hcs ⊢
              intro e he
              exact ih i e hszi hsi (hcs e he)
          | _ =>
              rw [canStamp_array_not_arr _ _ (by intro items; simp)] at hcs
              simp at hcs
      | objectAgent shape =>
          obtain ⟨hnd, hss⟩ := structural_object_parts hso
          by_cases hz : isObjectTyped z = true
          · rw [verify_object_obj _ _ hz, verifyFields_eq_true_iff]
            intro p hp
            obtain ⟨k, ck⟩ := p
            obtain ⟨v₀, hv₀, hval⟩ := (canStamp_object_iff shape z hz).mp hcs (k, ck) hp
            have hlk : List.lookup k shape = some ck := lookup_eq_of_mem_nodup hnd hp
            have happ : applyShape shape k v₀ = makeStampable ck v₀ := by
              simp [applyShape, hlk]
            rw [happ] at hval
            have hsz : sizeOf ck ≤ n := by
              have := sizeOf_mem_shape hp
              simp at hle
              omega
            have hsck : structuralOnly ck = true := structuralShape_mem hss hp
            have hv : verifyStamp ck v₀ = true := ih ck v₀ hsz hsck hval
            constructor
            · exact hasProp_of_own_any hz (any_of_lookup_some hv₀)
            · rw [getProp_of_own_lookup hz hv₀]
              exact hv
          · simp only [Bool.not_eq_true] at hz
            rw [canStamp_object_not_obj _ _ hz] at hcs
            simp at hcs
      | unsnakeAgent oa => simp [structuralOnly] at hso
      | conversionAgent inA fn outA => simp [structuralOnly] at hso

/-- For a structural agent, acceptance implies recognition: canonicalization
never turns an unrecognized value into a recognized one. -/
theorem canStamp_implies_verify {c : Agent} {z : Value}
    (hso : structuralOnly c = true) (hcs : canStamp c z = true) :
    verifyStamp c z = true :=
  canStamp_implies_verify_aux (sizeOf c) c z le_rfl hso hcs

theorem verify_through_make_aux :
    ∀ (n : ℕ) (p w : Agent) (x : Value), sizeOf p + sizeOf w ≤ n →
      structuralOnly p = true → structuralOnly w = true →
      canStamp w x = true → verifyStamp p (makeStampable w x) = true →
      verifyStamp p x = true := by
  intro n
  induction n with
  | zero =>
      intro p w x hle
      cases p <;> simp at hle <;> omega
  | succ n ih =>
      intro p w x hle hsp hsw hcsw hyp
      cases p with
      | stringAgent =>
          rwa [make_nonobj_id hsw hcsw (verify_string_not_obj hyp)] at hyp
      | numberAgent =>
          rwa [make_nonobj_id hsw hcsw (verify_number_not_obj hyp)] at hyp
      | booleanAgent =>
          rwa [make_nonobj_id hsw hcsw (verify_boolean_not_obj hyp)] at hyp
      | nullAgent =>
          rwa [make_nonobj_id hsw hcsw (verify_null_not_obj hyp)] at hyp
      | enumAgent eo =>
          rwa [make_nonobj_id hsw hcsw (verify_enum_not_obj hyp)] at hyp
      | unionAgent p1 p2 =>
          obtain ⟨hs1, hs2⟩ := structural_union_parts hsp
          rw [verify_union] at hyp ⊢
          simp only [Bool.or_eq_true] at hyp ⊢
          rcases hyp with h | h
          · exact Or.inl (ih p1 w x (by simp at hle; omega) hs1 hsw hcsw h)
          · exact Or.inr (ih p2 w x (by simp at hle; omega) hs2 hsw hcsw h)
      | unsnakeAgent oa => simp [structuralOnly] at hsp
      | conversionAgent inA fn outA => simp [structuralOnly] at hsp
      | arrayAgent c =>
          have hsc := structural_array_part hsp
          cases w with
          | stringAgent => rwa [make_prim_string] at hyp
          | numberAgent => rwa [make_prim_number] at hyp
          | booleanAgent => rwa [make_prim_boolean] at hyp
          | nullAgent => rwa [make_prim_null] at hyp
          | enumAgent eo => rwa [make_enum] at hyp
          | unsnakeAgent oa => simp [structuralOnly] at hsw
          | conversionAgent inA fn outA => simp [structuralOnly] at hsw
          | unionAgent w1 w2 =>
              obtain ⟨hw1, hw2⟩ := structural_union_parts hsw
              rw [make_union] at hyp
              by_cases hb1 : canStamp w1 x = true
              · rw [if_pos hb1] at hyp
                exact ih (.arrayAgent c) w1 x (by simp at hle ⊢; omega) hsp hw1 hb1 hyp
              · rw [if_neg hb1] at hyp
                by_cases hb2 : canStamp w2 x = true
                · rw [if_pos hb2] at hyp
                  exact ih (.arrayAgent c) w2 x (by simp at hle ⊢; omega) hsp hw2 hb2 hyp
                · rwa [if_neg hb2] at hyp
          | objectAgent ws =>
              by_cases hx : isObjectTyped x = true
              · rw [make_object_objTyped ws x hx] at hyp
                rw [verify_array_not_arr _ _ (by intro items; simp)] at hyp
                simp at hyp
              · simp only [Bool.not_eq_true] at hx
                rw [canStamp_object_not_obj _ _ hx] at hcsw
                simp at hcsw
          | arrayAgent d =>
              have hsd := structural_array_part hsw
              cases x with
              | varr its =>
                  rw [make_array_varr, verify_array_varr, List.all_map] at hyp
                  rw [canStamp_array_varr] at hcsw
                  rw [verify_array_varr]
                  simp only [List.all_eq_true, Function.comp_apply] at hyp hcsw ⊢
                  intro e he
                  exact ih c d e (by simp at hle; omega) hsc hsd (hcsw e he) (hyp e he)
              | _ =>
                  rwa [make_array_not_arr _ _ (by intro items; simp)] at hyp
      | objectAgent ps =>
          obtain ⟨hndp, hssp⟩ := structural_object_parts hsp
          cases w with
          | stringAgent => rwa [make_prim_string] at hyp
          | numberAgent => rwa [make_prim_number] at hyp
          | booleanAgent => rwa [make_prim_boolean] at hyp
          | nullAgent => rwa [make_prim_null] at hyp
          | enumAgent eo => rwa [make_enum] at hyp
          | unsnakeAgent oa => simp [structuralOnly] at hsw
          | conversionAgent inA fn outA => simp [structuralOnly] at hsw
          | unionAgent w1 w2 =>
              obtain ⟨hw1, hw2⟩ := structural_union_parts hsw
              rw [make_union] at hyp
              by_cases hb1 : canStamp w1 x = true
              · rw [if_pos hb1] at hyp
                exact ih (.objectAgent ps) w1 x (by simp at hle ⊢; omega) hsp hw1 hb1 hyp
              · rw [if_neg hb1] at hyp
                by_cases hb2 : canStamp w2 x = true
                · rw [if_pos hb2] at hyp
                  exact ih (.objectAgent ps) w2 x (by simp at hle ⊢; omega) hsp hw2 hb2 hyp
                · rwa [if_neg hb2] at hyp
          | arrayAgent d =>
              have hsd := structural_array_part hsw
              cases x with
              | varr its =>
                  rw [make_array_varr] at hyp
                  rw [verify_object_obj _ _ (by rfl), verifyFields_eq_true_iff] at hyp
                  rw [verify_object_obj _ _ (by rfl), verifyFields_eq_true_iff]
                  intro q hq
                  obtain ⟨k, ck⟩ := q
                  obtain ⟨hhas, hval⟩ := hyp (k, ck) hq
                  have hkeys : arrEntries (its.map fun e => makeStampable d e)
                      = (arrEntries its).map (fun q => (q.1, makeStampable d q.2)) :=
                    arrEntries_map _ its
                  cases hlk : List.lookup k (arrEntries its) with
                  | some v₀ =>
                      have hlky : List.lookup k
                          (arrEntries (its.map fun e => makeStampable d e))
                          = some (makeStampable d v₀) := by
                        rw [hkeys, lookup_map_vals (arrEntries its)
                          (fun _ v => makeStampable d v) k, hlk]
                        rfl
                      have hg : getProp (.varr (its.map fun e => makeStampable d e)) k
                          = makeStampable d v₀ := getProp_of_own_lookup (by rfl) hlky
                      rw [hg] at hval
                      have hmem : v₀ ∈ its := mem_of_lookup_arrEntries hlk
                      have hcd : canStamp d v₀ = true := by
                        rw [canStamp_array_varr] at hcsw
                        simp only [List.all_eq_true] at hcsw
                        exact hcsw v₀ hmem
                      have hsze : sizeOf ck + sizeOf d ≤ n := by
                        have := sizeOf_mem_shape hq
                        simp at hle
                        omega
                      have hvck := ih ck d v₀ hsze (structuralShape_mem hssp hq) hsd hcd hval
                      refine ⟨hasProp_of_own_any (by rfl) (any_of_lookup_some hlk), ?_⟩
                      rw [getProp_of_own_lookup (by rfl) hlk]
                      exact hvck
                  | none =>
                      have hany : (arrEntries (its.map fun e => makeStampable d e)).any
                          (fun p => p.1 == k) = false := by
                        rw [hkeys, any_key_map_vals (arrEntries its)
                          (fun _ v => makeStampable d v) k, ← lookup_isSome_eq_any, hlk]
                        rfl
                      have hlky : List.lookup k
                          (arrEntries (its.map fun e => makeStampable d e)) = none := by
                        have h1 := lookup_isSome_eq_any
                          (arrEntries (its.map fun e => makeStampable d e)) k
                        rw [hany] at h1
                        exact Option.not_isSome_iff_eq_none.mp (by simp [h1])
                      simp only [hasProperty, hany, Bool.false_or] at hhas
                      have hk : k = "length" := by simpa using hhas
                      subst hk
                      have hgy : getProp (.varr (its.map fun e => makeStampable d e)) "length"
                          = .vnum (its.map fun e => makeStampable d e).length := by
                        simp [getProp, hlky]
                      rw [hgy] at hval
                      simp only [List.length_map] at hval
                      refine ⟨by simp [hasProperty], ?_⟩
                      have hgx : getProp (.varr its) "length" = .vnum its.length := by
                        simp [getProp, hlk]
                      rw [hgx]
                      exact hval
              | _ =>
                  rwa [make_array_not_arr _ _ (by intro items; simp)] at hyp
          | objectAgent ws =>
              obtain ⟨hndw, hssw⟩ := structural_object_parts hsw
              by_cases hx : isObjectTyped x = true
              · rw [make_object_objTyped ws x hx] at hyp
                rw [verify_object_obj _ _ (by rfl), verifyFields_eq_true_iff] at hyp
                rw [verify_object_obj _ _ hx, verifyFields_eq_true_iff]
                intro q hq
                obtain ⟨k, ck⟩ := q
                obtain ⟨hhas, hval⟩ := hyp (k, ck) hq
                rw [hasProp_plain, any_key_map_vals] at hhas
                obtain ⟨v₀, hv₀⟩ := lookup_some_of_any hhas
                have hgy : getProp (.vobj ((ownEntries x).map
                    (fun q => (q.1, applyShape ws q.1 q.2))) []) k
                    = applyShape ws k v₀ := by
                  apply getProp_plain_some
                  rw [lookup_map_vals, hv₀]
                  rfl
                rw [hgy] at hval
                refine ⟨hasProp_of_own_any hx hhas, ?_⟩
                rw [getProp_of_own_lookup hx hv₀]
                cases hlkws : List.lookup k ws with
                | none =>
                    have happ : applyShape ws k v₀ = v₀ := by simp [applyShape, hlkws]
                    rwa [happ] at hval
                | some wk =>
                    have happ : applyShape ws k v₀ = makeStampable wk v₀ := by
                      simp [applyShape, hlkws]
                    rw [happ] at hval
                    have hwmem := lookup_mem hlkws
                    obtain ⟨u₀, hu₀, hwval⟩ :=
                      (canStamp_object_iff ws x hx).mp hcsw (k, wk) hwmem
                    rw [hv₀] at hu₀
                    have hu : v₀ = u₀ := Option.some.inj hu₀
                    subst hu
                    rw [happ] at hwval
                    have hsze : sizeOf ck + sizeOf wk ≤ n := by
                      have h1 := sizeOf_mem_shape hq
                      have h2 := sizeOf_lookup_lt ws k wk hlkws
                      simp at hle
                      omega
                    exact ih ck wk v₀ hsze (structuralShape_mem hssp hq)
                      (structuralShape_mem hssw hwmem) hwval hval
              · simp only [Bool.not_eq_true] at hx
                rw [canStamp_object_not_obj _ _ hx] at hcsw
                simp at hcsw

/-- For structural agents, a value recognized by `p` after being
canonicalized by an accepting agent `w` was already recognized by `p`
before canonicalization. -/
theorem verify_through_make {p w : Agent} {x : Value}
    (hsp : structuralOnly p = true) (hsw : structuralOnly w = true)
    (hcsw : canStamp w x = true)
    (hyp : verifyStamp p (makeStampable w x) = true) : verifyStamp p x = true :=
  verify_through_make_aux (sizeOf p + sizeOf w) p w x le_rfl hsp hsw hcsw hyp

theorem canStamp_through_make_aux :
    ∀ (n : ℕ) (u w : Agent) (x : Value), sizeOf u + sizeOf w ≤ n →
      structuralOnly u = true → structuralOnly w = true →
      canStamp w x = true → canStamp u (makeStampable w x) = true →
      canStamp u x = true := by
  intro n
  induction n with
  | zero =>
      intro u w x hle
      cases u <;> simp at hle <;> omega
  | succ n ih =>
      intro u w x hle hsu hsw hcsw hyp
      cases u with
      | stringAgent =>
          rw [canStamp_prim_string] at hyp ⊢
          rwa [make_nonobj_id hsw hcsw (verify_string_not_obj hyp)] at hyp
      | numberAgent =>
          rw [canStamp_prim_number] at hyp ⊢
          rwa [make_nonobj_id hsw hcsw (verify_number_not_obj hyp)] at hyp
      | booleanAgent =>
          rw [canStamp_prim_boolean] at hyp ⊢
          rwa [make_nonobj_id hsw hcsw (verify_boolean_not_obj hyp)] at hyp
      | nullAgent =>
          rw [canStamp_prim_null] at hyp ⊢
          rwa [make_nonobj_id hsw hcsw (verify_null_not_obj hyp)] at hyp
      | enumAgent eo =>
          rw [canStamp_enum] at hyp ⊢
          rwa [make_nonobj_id hsw hcsw (verify_enum_not_obj hyp)] at hyp
      | unionAgent u1 u2 =>
          obtain ⟨hs1, hs2⟩ := structural_union_parts hsu
          rw [canStamp_union] at hyp ⊢
          simp only [Bool.or_eq_true] at hyp ⊢
          rcases hyp with ((h | h) | h) | h
          · exact Or.inl (Or.inl (Or.inl (ih u1 w x (by simp at hle; omega) hs1 hsw hcsw h)))
          · exact Or.inl (Or.inl (Or.inr (ih u2 w x (by simp at hle; omega) hs2 hsw hcsw h)))
          · exact Or.inl (Or.inr (verify_through_make hs1 hsw hcsw h))
          · exact Or.inr (verify_through_make hs2 hsw hcsw h)
      | unsnakeAgent oa => simp [structuralOnly] at hsu
      | conversionAgent inA fn outA => simp [structuralOnly] at hsu
      | arrayAgent c =>
          have hsc := structural_array_part hsu
          cases w with
          | stringAgent => rwa [make_prim_string] at hyp
          | numberAgent => rwa [make_prim_number] at hyp
          | booleanAgent => rwa [make_prim_boolean] at hyp
          | nullAgent => rwa [make_prim_null] at hyp
          | enumAgent eo => rwa [make_enum] at hyp
          | unsnakeAgent oa => simp [structuralOnly] at hsw
          | conversionAgent inA fn outA => simp [structuralOnly] at hsw
          | unionAgent w1 w2 =>
              obtain ⟨hw1, hw2⟩ := structural_union_parts hsw
              rw [make_union] at hyp
              by_cases hb1 : canStamp w1 x = true
              · rw [if_pos hb1] at hyp
                exact ih (.arrayAgent c) w1 x (by simp at hle ⊢; omega) hsu hw1 hb1 hyp
              · rw [if_neg hb1] at hyp
                by_cases hb2 : canStamp w2 x = true
                · rw [if_pos hb2] at hyp
                  exact ih (.arrayAgent c) w2 x (by simp at hle ⊢; omega) hsu hw2 hb2 hyp
                · rwa [if_neg hb2] at hyp
          | objectAgent ws =>
              by_cases hx : isObjectTyped x = true
              · rw [make_object_objTyped ws x hx] at hyp
                rw [canStamp_array_not_arr _ _ (by intro items; simp)] at hyp
                simp at hyp
              · simp only [Bool.not_eq_true] at hx
                rw [canStamp_object_not_obj _ _ hx] at hcsw
                simp at hcsw
          | arrayAgent d =>
              have hsd := structural_array_part hsw
              cases x with
              | varr its =>
                  rw [make_array_varr, canStamp_array_varr, List.all_map] at hyp
                  rw [canStamp_array_varr] at hcsw ⊢
                  simp only [List.all_eq_true, Function.comp_apply] at hyp hcsw ⊢
                  intro e he
                  exact ih c d e (by simp at hle; omega) hsc hsd (hcsw e he) (hyp e he)
              | _ =>
                  rwa [make_array_not_arr _ _ (by intro items; simp)] at hyp
      | objectAgent us =>
          obtain ⟨hndu, hssu⟩ := structural_object_parts hsu
          cases w with
          | stringAgent => rwa [make_prim_string] at hyp
          | numberAgent => rwa [make_prim_number] at hyp
          | booleanAgent => rwa [make_prim_boolean] at hyp
          | nullAgent => rwa [make_prim_null] at hyp
          | enumAgent eo => rwa [make_enum] at hyp
          | unsnakeAgent oa => simp [structuralOnly] at hsw
          | conversionAgent inA fn outA => simp [structuralOnly] at hsw
          | unionAgent w1 w2 =>
              obtain ⟨hw1, hw2⟩ := structural_union_parts hsw
              rw [make_union] at hyp
              by_cases hb1 : canStamp w1 x = true
              · rw [if_pos hb1] at hyp
                exact ih (.objectAgent us) w1 x (by simp at hle ⊢; omega) hsu hw1 hb1 hyp
              · rw [if_neg hb1] at hyp
                by_cases hb2 : canStamp w2 x = true
                · rw [if_pos hb2] at hyp
                  exact ih (.objectAgent us) w2 x (by simp at hle ⊢; omega) hsu hw2 hb2 hyp
                · rwa [if_neg hb2] at hyp
          | arrayAgent d =>
              have hsd := structural_array_part hsw
              cases x with
              | varr its =>
                  rw [make_array_varr] at hyp
                  rw [(canStamp_object_iff us _ (by rfl))] at hyp
                  rw [(canStamp_object_iff us _ (by rfl))]
                  intro q hq
                  obtain ⟨k, uk⟩ := q
                  obtain ⟨t₀, hlt, hvt⟩ := hyp (k, uk) hq
                  have hkeys : arrEntries (its.map fun e => makeStampable d e)
                      = (arrEntries its).map (fun q => (q.1, makeStampable d q.2)) :=
                    arrEntries_map _ its
                  rw [show ownEntries (Value.varr (its.map fun e => makeStampable d e))
                      = arrEntries (its.map fun e => makeStampable d e) from rfl,
                    hkeys, lookup_map_vals (arrEntries its)
                      (fun _ v => makeStampable d v) k] at hlt
                  obtain ⟨v₀, hv₀, ht₀⟩ := Option.map_eq_some'.mp hlt
                  subst ht₀
                  have hlku : List.lookup k us = some uk := lookup_eq_of_mem_nodup hndu hq
                  have happs : ∀ z, applyShape us k z = makeStampable uk z := by
                    intro z
                    simp [applyShape, hlku]
                  rw [happs] at hvt
                  have hmem : v₀ ∈ its := mem_of_lookup_arrEntries hv₀
                  have hcd : canStamp d v₀ = true := by
                    rw [canStamp_array_varr] at hcsw
                    simp only [List.all_eq_true] at hcsw
                    exact hcsw v₀ hmem
                  have hsze : sizeOf uk + sizeOf d ≤ n := by
                    have := sizeOf_mem_shape hq
                    simp at hle
                    omega
                  have hcuk := ih uk d v₀ hsze (structuralShape_mem hssu hq) hsd hcd hvt
                  refine ⟨v₀, hv₀, ?_⟩
                  rw [happs]
                  exact hcuk
              | _ =>
                  rwa [make_array_not_arr _ _ (by intro items; simp)] at hyp
          | objectAgent ws =>
              obtain ⟨hndw, hssw⟩ := structural_object_parts hsw
              by_cases hx : isObjectTyped x = true
              · rw [make_object_objTyped ws x hx] at hyp
                rw [(canStamp_object_iff us _ (by rfl))] at hyp
                rw [(canStamp_object_iff us _ hx)]
                intro q hq
                obtain ⟨k, uk⟩ := q
                obtain ⟨t₀, hlt, hvt⟩ := hyp (k, uk) hq
                rw [show ownEntries (Value.vobj ((ownEntries x).map
                    (fun q => (q.1, applyShape ws q.1 q.2))) [])
                    = (ownEntries x).map (fun q => (q.1, applyShape ws q.1 q.2)) from rfl,
                  lookup_map_vals] at hlt
                obtain ⟨v₀, hv₀, ht₀⟩ := Option.map_eq_some'.mp hlt
                subst ht₀
                have hlku : List.lookup k us = some uk := lookup_eq_of_mem_nodup hndu hq
                have happs : ∀ z, applyShape us k z = makeStampable uk z := by
                  intro z
                  simp [applyShape, hlku]
                rw [happs] at hvt
                refine ⟨v₀, hv₀, ?_⟩
                rw [happs]
                cases hlkws : List.lookup k ws with
                | none =>
                    have happw : applyShape ws k v₀ = v₀ := by simp [applyShape, hlkws]
                    rwa [happw] at hvt
                | some wk =>
                    have happw : applyShape ws k v₀ = makeStampable wk v₀ := by
                      simp [applyShape, hlkws]
                    rw [happw] at hvt
                    have hwmem := lookup_mem hlkws
                    obtain ⟨u₀, hu₀, hwval⟩ :=
                      (canStamp_object_iff ws x hx).mp hcsw (k, wk) hwmem
                    rw [hv₀] at hu₀
                    have hu : v₀ = u₀ := Option.some.inj hu₀
                    subst hu
                    rw [happw] at hwval
                    have hsze : sizeOf uk + sizeOf wk ≤ n := by
                      have h1 := sizeOf_mem_shape hq
                      have h2 := sizeOf_lookup_lt ws k wk hlkws
                      simp at hle
                      omega
                    exact ih uk wk v₀ hsze (structuralShape_mem hssu hq)
                      (structuralShape_mem hssw hwmem) hwval hvt
              · simp only [Bool.not_eq_true] at hx
                rw [canStamp_object_not_obj _ _ hx] at hcsw
                simp at hcsw

/-- For structural agents, if `w` accepts `x` and `u` accepts `w`'s
canonicalization of `x`, then `u` already accepts the raw `x`. -/
theorem canStamp_through_make {u w : Agent} {x : Value}
    (hsu : structuralOnly u = true) (hsw : structuralOnly w = true)
    (hcsw : canStamp w x = true)
    (hyp : canStamp u (makeStampable w x) = true) : canStamp u x = true :=
  canStamp_through_make_aux (sizeOf u + sizeOf w) u w x le_rfl hsu hsw hcsw hyp

theorem make_idempotent_aux :
    ∀ (n : ℕ) (a : Agent) (v : Value), sizeOf a ≤ n →
      structuralOnly a = true →
      makeStampable a (makeStampable a v) = makeStampable a v := by
  intro n
  induction n with
  | zero =>
      intro a v hle
      cases a <;> simp at hle
  | succ n ih =>
      intro a v hle hs
      cases a with
      | stringAgent => rw [make_prim_string, make_prim_string]
      | numberAgent => rw [make_prim_number, make_prim_number]
      | booleanAgent => rw [make_prim_boolean, make_prim_boolean]
      | nullAgent => rw [make_prim_null, make_prim_null]
      | enumAgent eo => rw [make_enum, make_enum]
      | unsnakeAgent oa => simp [structuralOnly] at hs
      | conversionAgent inA fn outA => simp [structuralOnly] at hs
      | unionAgent u w =>
          obtain ⟨hsu, hsw⟩ := structural_union_parts hs
          have hszu : sizeOf u ≤ n := by simp at hle; omega
          have hszw : sizeOf w ≤ n := by simp at hle; omega
          by_cases h1 : canStamp u v = true
          · have e1 : makeStampable (.unionAgent u w) v = makeStampable u v := by
              rw [make_union, if_pos h1]
            have hcu2 : canStamp u (makeStampable u v) = true := by
              unfold canStamp
              rw [ih u v hszu hsu]
              exact h1
            rw [e1, make_union, if_pos hcu2]
            exact ih u v hszu hsu
          · by_cases h2 : canStamp w v = true
            · have e1 : makeStampable (.unionAgent u w) v = makeStampable w v := by
                rw [make_union, if_neg h1, if_pos h2]
              have hcu2 : canStamp u (makeStampable w v) = false := by
                by_contra hcon
                simp only [Bool.not_eq_false] at hcon
                exact h1 (canStamp_through_make hsu hsw h2 hcon)
              have hcw2 : canStamp w (makeStampable w v) = true := by
                unfold canStamp
                rw [ih w v hszw hsw]
                exact h2
              rw [e1, make_union, if_neg (by simp [hcu2]), if_pos hcw2]
              exact ih w v hszw hsw
            · have e1 : makeStampable (.unionAgent u w) v = v := by
                rw [make_union, if_neg h1, if_neg h2]
              rw [e1]
              exact e1
      | arrayAgent i =>
          have hsi := structural_array_part hs
          have hszi : sizeOf i ≤ n := by simp at hle; omega
          cases v with
          | varr its =>
              rw [make_array_varr, make_array_varr, List.map_map]
              congr 1
              apply List.map_congr_left
              intro e _
              simp only [Function.comp_apply]
              exact ih i e hszi hsi
          | _ => simp [makeStampable]
      | objectAgent shape =>
          obtain ⟨hnd, hss⟩ := structural_object_parts hs
          have hszs : sizeOf shape ≤ n := by simp at hle; omega
          cases v with
          | vobj own inh =>
              rw [make_object_vobj, make_object_vobj, List.map_map]
              congr 1
              apply List.map_congr_left
              intro p _
              simp only [Function.comp_apply]
              congr 1
              cases hlk : List.lookup p.1 shape with
              | none => simp [applyShape, hlk]
              | some ag =>
                  simp only [applyShape, hlk]
                  have hsza : sizeOf ag ≤ n := by
                    have := sizeOf_lookup_lt shape p.1 ag hlk
                    omega
                  exact ih ag p.2 hsza (structuralShape_mem hss (lookup_mem hlk))
          | varr its =>
              rw [make_object_varr, make_object_vobj, List.map_map]
              congr 1
              apply List.map_congr_left
              intro p _
              simp only [Function.comp_apply]
              congr 1
              cases hlk : List.lookup p.1 shape with
              | none => simp [applyShape, hlk]
              | some ag =>
                  simp only [applyShape, hlk]
                  have hsza : sizeOf ag ≤ n := by
                    have := sizeOf_lookup_lt shape p.1 ag hlk
                    omega
                  exact ih ag p.2 hsza (structuralShape_mem hss (lookup_mem hlk))
          | _ => simp [makeStampable]

/-- A conversion-free, unsnake-free validator on which the SECOND
canonicalization of an accepted candidate throws in the source: see
`second_canonicalize_can_throw`. -/
def secondThrowAgent : Agent :=
  .unionAgent
    (.objectAgent
      [("h", .unionAgent
          (.objectAgent [("toString", .booleanAgent), ("a", .arrayAgent .booleanAgent)])
          (.objectAgent [("z", .nullAgent)])),
       ("m", .nullAgent)])
    (.objectAgent
      [("h", .objectAgent
          [("toString", .booleanAgent), ("a", .objectAgent [("0", .booleanAgent)])])])

/-- The accepted candidate on which `secondThrowAgent`'s second
canonicalization throws. -/
def secondThrowCand : Value :=
  .vobj [("h", .vobj [("toString", .vbool true), ("a", .varr [.vbool true])] [])] []

/-- Idempotence of canonicalization cannot be stated for all accepted data
without a no-throw proviso on the repeat run: `secondThrowAgent` is built
from unions, objects, arrays and primitives only, it accepts
`secondThrowCand` with the first canonicalization completing, yet the
second canonicalization throws a TypeError in the source — the first run
canonicalizes via the right union child, the rewritten inner value makes
the left child's own probe fail without throwing, and the left child's
second direct report then meets the own key `"toString"`, unbound in its
shape, at index.js:157-159. -/
theorem second_canonicalize_can_throw :
    structuralOnly secondThrowAgent = true
    ∧ canStamp secondThrowAgent secondThrowCand = true
    ∧ makeThrows secondThrowAgent secondThrowCand = false
    ∧ makeThrows secondThrowAgent (makeStampable secondThrowAgent secondThrowCand)
        = true := by
  have h0 : toString (0 : ℕ) = "0" := by decide
  refine ⟨by simp [secondThrowAgent, structuralOnly, structuralShape, nodupKeys], ?_, ?_, ?_⟩ <;>
    simp [h0, secondThrowAgent, secondThrowCand, canStamp, makeStampable, verifyStamp,
      verifyFields, hasProperty, getProp, makeThrows, List.lookup, arrEntries, protoKeys]

/-- C4 (amended): for every validator built without the Conversion and
KeyNormalize combinators (object shapes binding each field name once, as
TypeScript record shapes do), and every candidate the validator accepts —
with neither the accepting canonicalization nor its repetition throwing the
TypeError of index.js:157-159 — canonicalization is idempotent:
canonicalizing the canonicalized value returns it unchanged.  The no-throw
proviso on the repetition is not vacuous caution: it can genuinely fail on
accepted data (`second_canonicalize_can_throw`), and with Conversion or
KeyNormalize in the tree the equality itself fails
(`canonicalize_idempotence_counterexample`,
`canonicalize_idempotence_fails_unsnake`). -/
theorem canonicalize_idempotent_structural (a : Agent) (v : Value)
    (hs : structuralOnly a = true) (hacc : canStamp a v = true)
    (hnt : makeThrows a v = false)
    (hnt2 : makeThrows a (makeStampable a v) = false) :
    makeStampable a (makeStampable a v) = makeStampable a v :=
  make_idempotent_aux (sizeOf a) a v le_rfl hs

/-- Witness for C4's amended theorem at a concrete structural validator and
accepted, throw-free candidate. -/
theorem canonicalize_idempotent_structural_witness :
    structuralOnly (.objectAgent [("a", .arrayAgent .stringAgent)]) = true
    ∧ canStamp (.objectAgent [("a", .arrayAgent .stringAgent)])
        (.vobj [("a", .varr [.vstr "x"]), ("b", .vnum 1)] [("c", .vnull)]) = true
    ∧ makeStampable (.objectAgent [("a", .arrayAgent .stringAgent)])
        (makeStampable (.objectAgent [("a", .arrayAgent .stringAgent)])
          (.vobj [("a", .varr [.vstr "x"]), ("b", .vnum 1)] [("c", .vnull)]))
      = makeStampable (.objectAgent [("a", .arrayAgent .stringAgent)])
          (.vobj [("a", .varr [.vstr "x"]), ("b", .vnum 1)] [("c", .vnull)]) :=
  ⟨by simp [structuralOnly, structuralShape, nodupKeys],
   by simp [canStamp, makeStampable, verifyStamp, verifyFields, hasProperty,
       getProp, List.lookup],
   canonicalize_idempotent_structural _ _
     (by simp [structuralOnly, structuralShape, nodupKeys])
     (by simp [canStamp, makeStampable, verifyStamp, verifyFields, hasProperty,
       getProp, List.lookup])
     (by simp [makeThrows, makeStampable, List.lookup, protoKeys])
     (by simp [makeThrows, makeStampable, List.lookup, protoKeys])⟩

/-- Canonicalization idempotence on accepted data also fails with the
KeyNormalize (unsnake) combinator in the tree: for
`Union(Object({fooBar: Object({})}), KeyNormalize(Object({})))`, the
candidate `{foo_bar: []}` is accepted, its first canonicalization routes
through the right child (producing `{fooBar: []}`), and the second routes
through the left child, which further rewrites the inner array to `{}`. -/
theorem canonicalize_idempotence_fails_unsnake :
    canStamp (.unionAgent (.objectAgent [("fooBar", .objectAgent [])])
        (.unsnakeAgent (.objectAgent [])))
      (.vobj [("foo_bar", .varr [])] []) = true
    ∧ makeStampable (.unionAgent (.objectAgent [("fooBar", .objectAgent [])])
        (.unsnakeAgent (.objectAgent [])))
        (makeStampable (.unionAgent (.objectAgent [("fooBar", .objectAgent [])])
          (.unsnakeAgent (.objectAgent [])))
          (.vobj [("foo_bar", .varr [])] []))
      ≠ makeStampable (.unionAgent (.objectAgent [("fooBar", .objectAgent [])])
          (.unsnakeAgent (.objectAgent [])))
          (.vobj [("foo_bar", .varr [])] []) := by
  have hc : camelCase "foo_bar" = "fooBar" := by decide
  constructor <;>
    simp [canStamp, makeStampable, verifyStamp, verifyFields, hasProperty, getProp,
      mapKeysCamel, setKey, hc, arrEntries, List.lookup, applyShape]

end CBP
